import Mathlib

/-!
Verification of the pot-odds core (outs classifier, nuts evaluator,
probability/ratio engine) against its specification.
The Python source is shallowly embedded: `Card` is the (rank-value, suit)
pair of `poker_engine.Card` (suits encoded s=0, h=1, d=2, c=3; rank values
2..14 as in the source), Python dicts keyed by card strings become
association lists in insertion order (Python dicts preserve insertion
order), and the external hand-strength oracle (`phevaluator`) is an
abstract parameter `oracle : List Card → Option Nat` (`none` models an
evaluation failure/raised exception, which `evaluate_hand_strength`
absorbs into the 9999 sentinel).
-/

/-- Mirrors `poker_engine.Card`: a playing card; `value` is the rank value
2..14, `suit` encodes shdc as 0,1,2,3.  Equality of Python `Card` objects
is equality of their string form, i.e. of the (value, suit) pair. -/
structure Card where
  value : Nat
  suit : Nat
deriving DecidableEq, Repr

/-- Mirrors `PokerEngine._create_deck`: the 52-card deck, ranks 2..A outer,
suits s,h,d,c inner. -/
def full_deck : List Card :=
  (List.range' 2 13).bind (fun v => [0, 1, 2, 3].map (fun s => Card.mk v s))

/-- Mirrors `PokerEngine.get_remaining_deck`: deck minus the known cards,
order-preserving. -/
def get_remaining_deck (known : List Card) : List Card :=
  full_deck.filter (fun c => c ∉ known)

/-- Mirrors `PokerEngine.evaluate_hand_strength`: fewer than 5 cards, or an oracle
failure, yields the worst-possible sentinel 9999; otherwise the oracle's
rank (lower = stronger). -/
def evaluate_hand_strength (oracle : List Card → Option Nat)
    (hole community : List Card) : Nat :=
  let all := hole ++ community
  if all.length < 5 then 9999 else (oracle all).getD 9999

/-- Association-list lookup (Python `dict` access / `in` test) for
Nat-keyed dicts. -/
def alook : List (Nat × Nat) → Nat → Option Nat
  | [], _ => none
  | (a, n) :: t, k => if k = a then some n else alook t k

/-- One step of Python's `d[k] = d.get(k, 0) + 1` counting idiom:
bump the count of `k`, inserting it at the end if absent. -/
def bump_count : List (Nat × Nat) → Nat → List (Nat × Nat)
  | [], k => [(k, 1)]
  | (a, n) :: t, k => if k = a then (a, n + 1) :: t else (a, n) :: bump_count t k

/-- Mirrors `PokerEngine.count_rank_occurrences` and the suit-count dicts:
counts keyed by `f`, in first-appearance order (Python dict insertion
order). -/
def counts_by (f : Card → Nat) (cards : List Card) : List (Nat × Nat) :=
  cards.foldl (fun d c => bump_count d (f c)) []

/-- The number of cards whose key `f` equals `k`. -/
def count_key (f : Card → Nat) (cards : List Card) (k : Nat) : Nat :=
  (cards.filter (fun c => f c = k)).length

/-- Association-list lookup for the card-keyed outs dict
(`card_str not in outs_dict` tests / value reads). -/
def alooks : List (Card × String) → Card → Option String
  | [], _ => none
  | (a, s) :: t, k => if k = a then some s else alooks t k

/-- Mirrors `OutsDetector._validates_as_out`: a candidate card is a genuine out
when appending it to the community cards strictly improves (lowers) the
oracle rank relative to the current strength. -/
def validates_as_out (oracle : List Card → Option Nat)
    (hole community : List Card) (c : Card) : Bool :=
  decide (evaluate_hand_strength oracle hole (community ++ [c]) <
    evaluate_hand_strength oracle hole community)

/-- The royal ranks A, K, Q, J, 10 (`royal_ranks` in the source). -/
def royal_ranks : List Nat := [14, 13, 12, 11, 10]

/-- Mirrors `OutsDetector._find_royal_flush_outs`: for each suit (in
first-appearance order) holding at least 4 distinct royal ranks, the
missing royal card(s) of that suit still in the remaining deck. -/
def find_royal_flush_outs (hole community : List Card) : List (Card × String) :=
  let all := hole ++ community
  let remaining := get_remaining_deck all
  (counts_by (fun c => c.suit) all).bind (fun p =>
    let s := p.1
    let held := royal_ranks.filter (fun r => all.any (fun c => c.suit = s ∧ c.value = r))
    if 4 ≤ held.length then
      (royal_ranks.filter (fun r => r ∉ held)).bind (fun mr =>
        (remaining.filter (fun c => c.value = mr ∧ c.suit = s)).map
          (fun c => (c, "royal flush")))
    else [])

/-- The 9 non-royal straight windows of
`OutsDetector._find_straight_flush_outs` (wheel last). -/
def sf_windows : List (List Nat) :=
  [[2, 3, 4, 5, 6], [3, 4, 5, 6, 7], [4, 5, 6, 7, 8], [5, 6, 7, 8, 9],
   [6, 7, 8, 9, 10], [7, 8, 9, 10, 11], [8, 9, 10, 11, 12],
   [9, 10, 11, 12, 13], [2, 3, 4, 5, 14]]

/-- Mirrors `OutsDetector._find_straight_flush_outs`: per suit, a non-royal
straight window missing exactly one rank of that suit contributes the
missing card. -/
def find_straight_flush_outs (hole community : List Card) : List (Card × String) :=
  let all := hole ++ community
  let remaining := get_remaining_deck all
  (counts_by (fun c => c.suit) all).bind (fun p =>
    let s := p.1
    let suitRanks := (all.filter (fun c => c.suit = s)).map (fun c => c.value)
    sf_windows.bind (fun w =>
      let missing := w.filter (fun r => r ∉ suitRanks)
      if missing.length = 1 then
        missing.bind (fun mr =>
          (remaining.filter (fun c => c.value = mr ∧ c.suit = s)).map
            (fun c => (c, "straight flush")))
      else []))

/-- Mirrors `OutsDetector._find_flush_outs`: every suit holding 4 or more cards
contributes all remaining cards of that suit, labelled `flush`. -/
def find_flush_outs (hole community : List Card) : List (Card × String) :=
  let all := hole ++ community
  (counts_by (fun c => c.suit) all).bind (fun p =>
    if 4 ≤ p.2 then
      ((get_remaining_deck all).filter (fun c => c.suit = p.1)).map
        (fun c => (c, "flush"))
    else [])

/-- The 10 straight windows of `OutsDetector._find_straight_outs`
(9 consecutive plus the wheel, wheel last). -/
def straight_windows : List (List Nat) :=
  [[2, 3, 4, 5, 6], [3, 4, 5, 6, 7], [4, 5, 6, 7, 8], [5, 6, 7, 8, 9],
   [6, 7, 8, 9, 10], [7, 8, 9, 10, 11], [8, 9, 10, 11, 12],
   [9, 10, 11, 12, 13], [10, 11, 12, 13, 14], [2, 3, 4, 5, 14]]

/-- Mirrors `OutsDetector._classify_straight_draw`: both gutshot and open-ended
collapse to the label `straight`. -/
def classify_straight_draw (completing : Nat) (ranks : List Nat) : String :=
  "straight"

/-- Mirrors `OutsDetector._find_straight_outs`: a straight window missing exactly
one rank with 4 ranks present contributes all remaining cards of that
missing rank.  The Python set of completing ranks (small ints) iterates
in ascending value order, modelled by filtering `2..14` in order. -/
def find_straight_outs (hole community : List Card) : List (Card × String) :=
  let all := hole ++ community
  let ranks := all.map (fun c => c.value)
  let remaining := get_remaining_deck all
  let completing : List Nat := straight_windows.filterMap (fun w =>
    let missing : List Nat := w.filter (fun r => r ∉ ranks)
    let present : List Nat := w.filter (fun r => r ∈ ranks)
    if missing.length = 1 then
      (if present.length = 4 then missing.head? else (none : Option Nat))
    else none)
  ((List.range' 2 13).filter (fun r => r ∈ completing)).bind (fun r =>
    (remaining.filter (fun c => c.value = r)).map
      (fun c => (c, classify_straight_draw r ranks)))

/-- Mirrors `OutsDetector._find_overcard_outs`: empty without community cards,
with a 4-card suit (flush draw in progress), or with 4 or more straight
out cards; otherwise each hole card above the whole board contributes its
remaining same-rank cards, labelled `overcard` internally. -/
def find_overcard_outs (hole community : List Card) : List (Card × String) :=
  if community = [] then []
  else
    let all := hole ++ community
    if (counts_by (fun c => c.suit) all).any (fun p => p.2 = 4) then []
    else if 4 ≤ (find_straight_outs hole community).length then []
    else
      let highest := (community.map (fun c => c.value)).foldl Nat.max 0
      let remaining := get_remaining_deck all
      (hole.map (fun c => c.value)).bind (fun hr =>
        if highest < hr then
          (remaining.filter (fun c => c.value = hr)).map
            (fun c => (c, "overcard"))
        else [])

/-- Mirrors `OutsDetector._find_improvement_outs`: a rank held exactly twice
contributes trips candidates unless the board is paired and the rank sits
on the board; a rank held three times contributes its quads candidate and,
for every other rank held exactly once, full-house candidates. -/
def find_improvement_outs (hole community : List Card) : List (Card × String) :=
  let all := hole ++ community
  let rc := counts_by (fun c => c.value) all
  let brc := counts_by (fun c => c.value) community
  let board_has_pair := brc.any (fun p => 2 ≤ p.2)
  let remaining := get_remaining_deck all
  rc.bind (fun p =>
    if p.2 = 2 then
      if board_has_pair ∧ 1 ≤ (alook brc p.1).getD 0 then []
      else
        (remaining.filter (fun c => c.value = p.1)).map
          (fun c => (c, "three of a kind"))
    else if p.2 = 3 then
      ((remaining.filter (fun c => c.value = p.1)).map
        (fun c => (c, "four of a kind"))) ++
      (rc.bind (fun q =>
        if q.1 ≠ p.1 ∧ 1 ≤ q.2 then
          (remaining.filter (fun c => c.value = q.1)).bind (fun c =>
            if (alook rc q.1).getD 0 = 1 then [(c, "full house")] else [])
        else []))
    else [])

/-- Mirrors `OutsDetector._find_two_pair_outs`: only with community cards, at most
one paired rank overall, and a pair on the board; each unpaired hole-card
rank contributes its remaining copies, labelled `two pair`. -/
def find_two_pair_outs (hole community : List Card) : List (Card × String) :=
  if community.length = 0 then []
  else
    let all := hole ++ community
    let arc := counts_by (fun c => c.value) all
    let brc := counts_by (fun c => c.value) community
    let remaining := get_remaining_deck all
    if 2 ≤ (arc.filter (fun p => 2 ≤ p.2)).length then []
    else
      hole.bind (fun hc =>
        if 2 ≤ (alook arc hc.value).getD 0 then []
        else if ¬ (brc.any (fun p => 2 ≤ p.2)) then []
        else
          (remaining.filter (fun c => c.value = hc.value)).map
            (fun c => (c, "two pair")))

/-- Python `dict` assignment `d[k] = v`: replace in place if present,
append otherwise. -/
def dict_assign (d : List (Card × String)) (k : Card) (v : String) :
    List (Card × String) :=
  if (alooks d k).isSome then
    d.map (fun q => if q.1 = k then (k, v) else q)
  else d ++ [(k, v)]

/-- One candidate-family pass of `find_outs` for the families guarded by
`card_str not in outs_dict and validates`: insert each validated candidate
not already claimed. -/
def insert_stage (val : Card → Bool) (d : List (Card × String))
    (cands : List (Card × String)) : List (Card × String) :=
  cands.foldl
    (fun d p => if (alooks d p.1).isNone ∧ val p.1 then d ++ [p] else d) d

/-- The royal-flush pass of `find_outs`, which assigns unconditionally
(`outs_dict[card_str] = 'royal flush'`) for each validated candidate. -/
def assign_stage (val : Card → Bool) (d : List (Card × String))
    (cands : List (Card × String)) : List (Card × String) :=
  cands.foldl (fun d p => if val p.1 then dict_assign d p.1 p.2 else d) d

/-- Replaces each underscore character with a space: the effect of the
single-character-pattern replace call in the improvement pass of
`find_outs`. -/
def underscore_to_space (s : String) : String :=
  String.mk (s.data.map (fun ch => if ch = '_' then ' ' else ch))

/-- Mirrors `OutsDetector.find_outs`: the seven candidate families processed in
priority order into an insertion-ordered dict keyed by card; the result is
the dict as a (card, draw_type) list. -/
def find_outs (oracle : List Card → Option Nat)
    (hole community : List Card) : List (Card × String) :=
  let val := validates_as_out oracle hole community
  let d0 := assign_stage val []
    ((find_royal_flush_outs hole community).map (fun p => (p.1, "royal flush")))
  let d1 := insert_stage val d0
    ((find_straight_flush_outs hole community).map
      (fun p => (p.1, "straight flush")))
  let d2 := insert_stage val d1 (find_flush_outs hole community)
  let d3 := insert_stage val d2 (find_straight_outs hole community)
  let d4 := insert_stage val d3
    ((find_overcard_outs hole community).map (fun p => (p.1, "pair")))
  let d5 := insert_stage val d4
    ((find_improvement_outs hole community).map
      (fun p => (p.1, underscore_to_space p.2)))
  insert_stage val d5
    ((find_two_pair_outs hole community).map (fun p => (p.1, "two pair")))

/-- The priority-ordered concatenation of all candidate families, with the
labels `find_outs` actually stores for each family. -/
def priority_candidates (hole community : List Card) : List (Card × String) :=
  ((find_royal_flush_outs hole community).map (fun p => (p.1, "royal flush"))) ++
  ((find_straight_flush_outs hole community).map
    (fun p => (p.1, "straight flush"))) ++
  (find_flush_outs hole community) ++
  (find_straight_outs hole community) ++
  ((find_overcard_outs hole community).map (fun p => (p.1, "pair"))) ++
  ((find_improvement_outs hole community).map
    (fun p => (p.1, underscore_to_space p.2))) ++
  ((find_two_pair_outs hole community).map (fun p => (p.1, "two pair")))

/-- The list `priority_candidates` restricted to candidates that validate as outs. -/
def validated_candidates (oracle : List Card → Option Nat)
    (hole community : List Card) : List (Card × String) :=
  (priority_candidates hole community).filter
    (fun p => validates_as_out oracle hole community p.1)

/-- Descending comparator: `(max, min)`. -/
def sort2 (x y : Nat) : Nat × Nat := if y ≤ x then (x, y) else (y, x)

/-- Sort five values into descending order (9-comparator sorting
network). -/
def sort5 (u0 u1 u2 u3 u4 : Nat) : Nat × Nat × Nat × Nat × Nat :=
  match sort2 u0 u1, sort2 u3 u4 with
  | (a0, a1), (a3, a4) =>
    match sort2 u2 a4 with
    | (b2, b4) =>
      match sort2 b2 a3, sort2 a1 b4 with
      | (c2, c3), (b1, c4) =>
        match sort2 a0 c3 with
        | (b0, d3) =>
          match sort2 b0 c2, sort2 b1 d3 with
          | (e0, d2), (c1, e3) =>
            match sort2 c1 d2 with
            | (e1, e2) => (e0, e1, e2, e3, c4)

/-- Colexicographic index of the 2-subset `{a, b}` (given `a > b ≥ 2`) of
the 13 rank values; order-isomorphic to descending-lexicographic kicker
comparison. -/
def idx2 (a b : Nat) : Nat := Nat.choose (b - 2) 1 + Nat.choose (a - 2) 2

/-- Colexicographic index of the 3-subset `{a, b, c}` with `a > b > c`. -/
def idx3 (a b c : Nat) : Nat :=
  Nat.choose (c - 2) 1 + Nat.choose (b - 2) 2 + Nat.choose (a - 2) 3

/-- Colexicographic index of the 5-subset `{a, b, c, d, e}` with
`a > b > c > d > e`. -/
def idx5 (a b c d e : Nat) : Nat :=
  Nat.choose (e - 2) 1 + Nat.choose (d - 2) 2 + Nat.choose (c - 2) 3 +
  Nat.choose (b - 2) 4 + Nat.choose (a - 2) 5

/-- Modelled from the spec: the external hand-strength oracle (§6) on
exactly 5 cards — the standard poker total order on 5-card hands, lower =
stronger, ties exactly for equally ranked hands, all values below the
9999 sentinel.  Category bands ascend
straight-flush < quads < full-house < flush < straight < trips <
two-pair < pair < high-card, and within a band hands compare by the
standard tiebreak order (encoded colexicographically). -/
def rank5 (k1 k2 k3 k4 k5 : Card) : Nat :=
  match sort5 k1.value k2.value k3.value k4.value k5.value with
  | (a, b, c, d, e) =>
    let flush := k1.suit = k2.suit ∧ k1.suit = k3.suit ∧ k1.suit = k4.suit ∧
      k1.suit = k5.suit
    let wheel := a = 14 ∧ b = 5 ∧ c = 4 ∧ d = 3 ∧ e = 2
    let run := a = b + 1 ∧ b = c + 1 ∧ c = d + 1 ∧ d = e + 1
    let straight := wheel ∨ run
    let high := if wheel then 5 else a
    if straight ∧ flush then 14 - high
    else if a = b ∧ b = c ∧ c = d then 13 + (14 - a) * 13 + (14 - e)
    else if b = c ∧ c = d ∧ d = e then 13 + (14 - b) * 13 + (14 - a)
    else if a = b ∧ b = c ∧ d = e then 182 + (14 - a) * 13 + (14 - d)
    else if a = b ∧ c = d ∧ d = e then 182 + (14 - c) * 13 + (14 - a)
    else if flush then 351 + (1286 - idx5 a b c d e)
    else if straight then 1638 + (14 - high)
    else if a = b ∧ b = c then 1651 + (14 - a) * 78 + (77 - idx2 d e)
    else if b = c ∧ c = d then 1651 + (14 - b) * 78 + (77 - idx2 a e)
    else if c = d ∧ d = e then 1651 + (14 - c) * 78 + (77 - idx2 a b)
    else if a = b ∧ c = d then 2665 + (77 - idx2 a c) * 13 + (14 - e)
    else if a = b ∧ d = e then 2665 + (77 - idx2 a d) * 13 + (14 - c)
    else if b = c ∧ d = e then 2665 + (77 - idx2 b d) * 13 + (14 - a)
    else if a = b then 3679 + (14 - a) * 286 + (285 - idx3 c d e)
    else if b = c then 3679 + (14 - b) * 286 + (285 - idx3 a d e)
    else if c = d then 3679 + (14 - c) * 286 + (285 - idx3 a b e)
    else if d = e then 3679 + (14 - d) * 286 + (285 - idx3 a b c)
    else 7397 + (1286 - idx5 a b c d e)

/-- Applies `rank5` to a 5-element list (other lengths yield the sentinel;
never reached through `poker_oracle`). -/
def rank5_list : List Card → Nat
  | [k1, k2, k3, k4, k5] => rank5 k1 k2 k3 k4 k5
  | _ => 9999

/-- Modelled from the spec: the external hand-strength oracle (§6),
`evaluate(cards: 5..7 distinct Card) → integer rank`, lower = stronger —
on 6 or 7 cards the best (minimum) rank over all 5-card subsets; outside
5..7 cards the oracle raises, modelled as `none`. -/
def poker_oracle (cs : List Card) : Option Nat :=
  if 5 ≤ cs.length ∧ cs.length ≤ 7 then
    some (((cs.sublistsLen 5).map rank5_list).foldl Nat.min 9999)
  else none

/-- The `i < j` double loop of the nuts evaluator's exhaustive search:
all 2-card combinations of a list, in loop order. -/
def pairs_of : List Card → List (Card × Card)
  | [] => []
  | x :: t => (t.map (fun y => (x, y))) ++ pairs_of t

/-- Mirrors `PokerEngine._uses_at_least_one_hole_card`: with a 5-card board,
compares the player's rank against the board evaluated with the first two
remaining-deck cards as fillers; boards of other sizes trivially use a
hole card. -/
def uses_at_least_one_hole_card (oracle : List Card → Option Nat)
    (hole board : List Card) : Bool :=
  if hole.length ≠ 2 then false
  else if board.length < 5 then true
  else
    let all := hole ++ board
    let player := evaluate_hand_strength oracle hole board
    if board.length = 5 then
      let remaining := get_remaining_deck all
      if 2 ≤ remaining.length then
        if evaluate_hand_strength oracle (remaining.take 2) board ≤ player then
          false
        else true
      else true
    else true

/-- Mirrors `PokerEngine._find_best_possible_hand_strength_excluding_known`:
the minimum oracle rank over all 2-card combinations of the deck
remaining after removing the known cards, evaluated against the board
(9999 when the board is illegally large). -/
def find_best_possible_hand_strength_excluding_known
    (oracle : List Card → Option Nat) (board all_known : List Card) : Nat :=
  if 5 < board.length then 9999
  else
    (pairs_of (get_remaining_deck all_known)).foldl
      (fun best pq =>
        let s := evaluate_hand_strength oracle [pq.1, pq.2] board
        if s < best then s else best) 9999

/-- The first suit (dict insertion order) holding at least 5 of the known
cards — the `flush_suit` loop shared by the two flush-nuts helpers. -/
def first_flush_suit (all : List Card) : Option Nat :=
  ((counts_by (fun c => c.suit) all).find? (fun p => 5 ≤ p.2)).map Prod.fst

/-- Ascending insertion into a sorted list (for Python's `sorted`). -/
def insert_asc (x : Nat) : List Nat → List Nat
  | [] => [x]
  | y :: t => if x ≤ y then x :: y :: t else y :: insert_asc x t

/-- Python `sorted` on rank lists (ascending). -/
def sort_asc (l : List Nat) : List Nat := l.foldr insert_asc []

/-- The `flush_ranks[i+4] - flush_ranks[i] == 4` window scan of
`PokerEngine._has_straight_flush_potential`. -/
def has_run_window : List Nat → Bool
  | [] => false
  | a :: rest =>
    (match rest.drop 3 with
     | b :: _ => decide (b - a = 4)
     | [] => false) || has_run_window rest

/-- Mirrors `PokerEngine._has_straight_flush_potential`: 5 consecutive ranks in
the (sorted) flush ranks, or the wheel A-2-3-4-5. -/
def has_straight_flush_potential (flush_ranks : List Nat) : Bool :=
  if flush_ranks.length < 5 then false
  else if has_run_window flush_ranks then true
  else decide (14 ∈ flush_ranks ∧ 2 ∈ flush_ranks ∧ 3 ∈ flush_ranks ∧
    4 ∈ flush_ranks ∧ 5 ∈ flush_ranks)

/-- Mirrors `PokerEngine._is_flush_nuts_scenario`: at least 5 known cards of one
suit, an unpaired (completed) board, and no straight-flush potential in
the flush suit's ranks. -/
def is_flush_nuts_scenario (hole completed_board : List Card)
    (completing : Card) : Bool :=
  let all := hole ++ completed_board
  match first_flush_suit all with
  | none => false
  | some fs =>
    if (counts_by (fun c => c.value) completed_board).any (fun p => 2 ≤ p.2) then
      false
    else
      let flush_ranks :=
        sort_asc ((all.filter (fun c => c.suit = fs)).map (fun c => c.value))
      ! has_straight_flush_potential flush_ranks

/-- Mirrors `PokerEngine._check_flush_nuts`: ace of the flush suit in the hole
cards or as the completing card, at least one hole card of the flush
suit, and the flush not formed by the board alone. -/
def check_flush_nuts (hole completed_board : List Card)
    (completing : Card) : Bool :=
  let all := hole ++ completed_board
  match first_flush_suit all with
  | none => false
  | some fs =>
    let player_has_ace := hole.any (fun c => decide (c.value = 14 ∧ c.suit = fs))
    let completing_is_ace : Bool := decide (completing.value = 14 ∧ completing.suit = fs)
    if player_has_ace || completing_is_ace then
      if (hole.filter (fun c => c.suit = fs)).length = 0 then false
      else
        let original_board_flush := completed_board.filter
          (fun c => decide (c.suit = fs ∧ c ≠ completing))
        if 5 ≤ original_board_flush.length +
            (if completing.suit = fs then 1 else 0) then false
        else true
    else false

/-- Mirrors `PokerEngine.is_nuts_when_completed`: terminal mode (no completing
card, 5-card board) or completion mode (completing card appended to the
board, with the flush fast path). -/
def is_nuts_when_completed (oracle : List Card → Option Nat)
    (hole community : List Card) (completing : Option Card) : Bool :=
  if hole.length ≠ 2 then false
  else
    match completing with
    | none =>
      if community.length ≠ 5 then false
      else
        let player := evaluate_hand_strength oracle hole community
        if ! uses_at_least_one_hole_card oracle hole community then false
        else
          decide (player ≤ find_best_possible_hand_strength_excluding_known
            oracle community (hole ++ community))
    | some c =>
      let completed_board := community ++ [c]
      if 5 < completed_board.length then false
      else if is_flush_nuts_scenario hole completed_board c then
        check_flush_nuts hole completed_board c
      else
        let player := evaluate_hand_strength oracle hole completed_board
        if ! uses_at_least_one_hole_card oracle hole completed_board then false
        else
          decide (player ≤ find_best_possible_hand_strength_excluding_known
            oracle completed_board (hole ++ completed_board))

/-- Mirrors `PotOddsCalculator._check_for_river_nuts`. -/
def check_for_river_nuts (oracle : List Card → Option Nat)
    (hole community : List Card) : Bool :=
  if hole.length ≠ 2 ∨ community.length ≠ 5 then false
  else
    let player := evaluate_hand_strength oracle hole community
    if ! uses_at_least_one_hole_card oracle hole community then false
    else
      decide (player ≤ find_best_possible_hand_strength_excluding_known
        oracle community (hole ++ community))

/-- Mirrors `PotOddsCalculator._check_for_completed_nuts`. -/
def check_for_completed_nuts (oracle : List Card → Option Nat)
    (hole community : List Card) : Bool :=
  if hole.length ≠ 2 then false
  else if community.length < 3 then false
  else
    let player := evaluate_hand_strength oracle hole community
    if ! uses_at_least_one_hole_card oracle hole community then false
    else
      decide (player ≤ find_best_possible_hand_strength_excluding_known
        oracle community (hole ++ community))

/-- Mirrors `PotOddsCalculator._calculate_flop_probability` (floats modelled by
exact rationals; the arithmetic here is exact in both). -/
def calculate_flop_probability (num_outs : Nat) : ℚ :=
  if num_outs = 0 then 0
  else if 47 ≤ num_outs then 1
  else 1 - ((47 - (num_outs : ℚ)) / 47) * ((46 - (num_outs : ℚ)) / 46)

/-- Mirrors `PotOddsCalculator._calculate_turn_probability`. -/
def calculate_turn_probability (num_outs : Nat) : ℚ :=
  if num_outs = 0 then 0
  else if 46 ≤ num_outs then 1
  else (num_outs : ℚ) / 46

/-- Mirrors `PotOddsCalculator._format_pot_odds_ratio` (floats modelled by exact
rationals; `round(ratio, 1)` modelled as rounding `10·ratio` to the
nearest integer, and Python's float rendering of a one-decimal value as
the digits of that integer). -/
def format_pot_odds_string (p : ℚ) : String :=
  if p ≤ 0 then "999.0:1"
  else if 1 ≤ p then "0.0:1"
  else
    let r := (1 - p) / p
    let tn := (round (10 * r) : ℤ).toNat
    if tn % 10 = 0 then Nat.repr (tn / 10) ++ ":1"
    else Nat.repr (tn / 10) ++ "." ++ Nat.repr (tn % 10) ++ ":1"

/-- Mirrors `PotOddsCalculator.calculate_pot_odds`: river short-circuit, completed
nuts short-circuit, then outs detection and phase formulas. -/
def calculate_pot_odds (oracle : List Card → Option Nat)
    (hole community : List Card) : String × List (Card × String) :=
  let cards_seen := hole.length + community.length
  if cards_seen = 7 then
    if check_for_river_nuts oracle hole community then ("NUTS!", [])
    else ("999.0:1", [])
  else if 5 ≤ cards_seen ∧ check_for_completed_nuts oracle hole community then
    ("NUTS!", [])
  else
    let outs := find_outs oracle hole community
    if outs = [] then ("999.0:1", [])
    else
      let p :=
        if cards_seen = 5 then calculate_flop_probability outs.length
        else if cards_seen = 6 then calculate_turn_probability outs.length
        else calculate_flop_probability outs.length
      (format_pot_odds_string p, outs)

/-- First-of-two options (the shape of dict-lookup through successive
insert-if-absent passes). -/
def ofirst (x y : Option String) : Option String :=
  match x with
  | some v => some v
  | none => y



theorem alook_bump (d : List (Nat × Nat)) (k j : Nat) :
    alook (bump_count d k) j =
      if j = k then some ((alook d k).getD 0 + 1) else alook d j := by
  induction d with
  | nil =>
    by_cases h : j = k <;> simp [bump_count, alook, h]
  | cons p t ih =>
    obtain ⟨a, n⟩ := p
    by_cases hk : k = a
    · subst hk
      by_cases hj : j = k <;> simp [bump_count, alook, hj]
    · by_cases hj : j = a
      · subst hj
        simp [bump_count, alook, hk, Ne.symm hk]
      · simp [bump_count, alook, hk, hj, ih]

theorem alook_counts_loop (f : Card → Nat) (cs : List Card)
    (d : List (Nat × Nat)) (k : Nat) :
    alook (cs.foldl (fun d c => bump_count d (f c)) d) k =
      if (alook d k).getD 0 + count_key f cs k = 0 then alook d k
      else some ((alook d k).getD 0 + count_key f cs k) := by
  induction cs generalizing d with
  | nil =>
    simp [count_key]
    cases h : alook d k <;> simp [h]
  | cons c t ih =>
    simp only [List.foldl_cons]
    rw [ih]
    by_cases hc : f c = k
    · rw [alook_bump]
      simp [hc, count_key, List.filter_cons]
      omega
    · rw [alook_bump]
      simp [Ne.symm hc, hc, count_key, List.filter_cons]

theorem alook_counts_by (f : Card → Nat) (cs : List Card) (k : Nat) :
    alook (counts_by f cs) k =
      if count_key f cs k = 0 then none else some (count_key f cs k) := by
  have h := alook_counts_loop f cs [] k
  simpa [counts_by, alook] using h

theorem counts_by_getD (f : Card → Nat) (cs : List Card) (k : Nat) :
    (alook (counts_by f cs) k).getD 0 = count_key f cs k := by
  rw [alook_counts_by]
  by_cases h : count_key f cs k = 0 <;> simp [h]

theorem alook_eq_some_of_mem {d : List (Nat × Nat)} {k n : Nat}
    (hnd : (d.map Prod.fst).Nodup) (hm : (k, n) ∈ d) : alook d k = some n := by
  induction d with
  | nil => simp at hm
  | cons p t ih =>
    obtain ⟨a, m⟩ := p
    simp only [List.map_cons, List.nodup_cons] at hnd
    rcases List.mem_cons.mp hm with h | h
    · have h1 : k = a := congrArg Prod.fst h
      have h2 : n = m := congrArg Prod.snd h
      subst h1; subst h2
      simp [alook]
    · have hka : k ≠ a := by
        intro he
        exact hnd.1 (he ▸ (List.mem_map.mpr ⟨(k, n), h, rfl⟩))
      simp [alook, hka, ih hnd.2 h]

theorem mem_of_alook_eq_some {d : List (Nat × Nat)} {k n : Nat}
    (h : alook d k = some n) : (k, n) ∈ d := by
  induction d with
  | nil => simp [alook] at h
  | cons p t ih =>
    obtain ⟨a, m⟩ := p
    by_cases hka : k = a
    · subst hka
      simp [alook] at h
      simp [h]
    · simp [alook, hka] at h
      exact List.mem_cons_of_mem _ (ih h)

theorem bump_keys (d : List (Nat × Nat)) (k : Nat) :
    (bump_count d k).map Prod.fst =
      if (alook d k).isSome then d.map Prod.fst else d.map Prod.fst ++ [k] := by
  induction d with
  | nil => simp [bump_count, alook]
  | cons p t ih =>
    obtain ⟨a, n⟩ := p
    by_cases hk : k = a
    · subst hk
      simp [bump_count, alook]
    · simp [bump_count, alook, hk, Ne.symm hk, ih]
      by_cases h : (alook t k).isSome <;> simp [h]

theorem bump_keys_nodup {d : List (Nat × Nat)} (k : Nat)
    (h : (d.map Prod.fst).Nodup) : ((bump_count d k).map Prod.fst).Nodup := by
  rw [bump_keys]
  by_cases hs : (alook d k).isSome
  · simpa [hs] using h
  · simp only [hs, Bool.false_eq_true, if_false]
    rw [List.nodup_append]
    refine ⟨h, List.nodup_singleton _, ?_⟩
    intro a ha hb
    simp only [List.mem_singleton] at hb
    subst hb
    rcases List.mem_map.mp ha with ⟨⟨k2, n2⟩, hm, he⟩
    simp only at he
    subst he
    have hsome : alook d k2 = some n2 := alook_eq_some_of_mem h hm
    simp [hsome] at hs

theorem counts_by_keys_nodup (f : Card → Nat) (cs : List Card) :
    ((counts_by f cs).map Prod.fst).Nodup := by
  have : ∀ d : List (Nat × Nat), (d.map Prod.fst).Nodup →
      ((cs.foldl (fun d c => bump_count d (f c)) d).map Prod.fst).Nodup := by
    induction cs with
    | nil => intro d h; simpa using h
    | cons c t ih =>
      intro d h
      simp only [List.foldl_cons]
      exact ih _ (bump_keys_nodup _ h)
  simpa [counts_by] using this [] (by simp)

theorem mem_counts_by (f : Card → Nat) (cs : List Card) (p : Nat × Nat) :
    p ∈ counts_by f cs ↔ count_key f cs p.1 = p.2 ∧ 0 < p.2 := by
  constructor
  · intro hm
    have h := alook_eq_some_of_mem (counts_by_keys_nodup f cs) hm
    rw [alook_counts_by] at h
    by_cases hz : count_key f cs p.1 = 0
    · simp [hz] at h
    · simp [hz] at h
      omega
  · rintro ⟨h1, h2⟩
    apply mem_of_alook_eq_some (d := counts_by f cs)
    rw [alook_counts_by, h1]
    have : p.2 ≠ 0 := by omega
    simp [this]

theorem ofirst_none (y : Option String) : ofirst none y = y := rfl

theorem ofirst_some (v : String) (y : Option String) :
    ofirst (some v) y = some v := rfl

theorem ofirst_assoc (x y z : Option String) :
    ofirst (ofirst x y) z = ofirst x (ofirst y z) := by
  cases x <;> rfl

theorem alooks_append (d1 d2 : List (Card × String)) (k : Card) :
    alooks (d1 ++ d2) k = ofirst (alooks d1 k) (alooks d2 k) := by
  induction d1 with
  | nil => simp [alooks, ofirst]
  | cons p t ih =>
    obtain ⟨a, s⟩ := p
    by_cases hk : k = a <;> simp [alooks, hk, ih, ofirst]

theorem alooks_eq_none_iff (d : List (Card × String)) (k : Card) :
    alooks d k = none ↔ k ∉ d.map Prod.fst := by
  induction d with
  | nil => simp [alooks]
  | cons p t ih =>
    obtain ⟨a, s⟩ := p
    by_cases hk : k = a <;> simp [alooks, hk, ih]

theorem alooks_singleton (p : Card × String) (k : Card) :
    alooks [p] k = if k = p.1 then some p.2 else none := by
  obtain ⟨a, s⟩ := p
  by_cases hk : k = a <;> simp [alooks, hk]

theorem insert_stage_cons (val : Card → Bool) (d : List (Card × String))
    (p : Card × String) (rest : List (Card × String)) :
    insert_stage val d (p :: rest) =
      insert_stage val
        (if (alooks d p.1).isNone ∧ val p.1 then d ++ [p] else d) rest := by
  simp [insert_stage]

theorem alooks_insert_stage (val : Card → Bool) (cands : List (Card × String)) :
    ∀ d k, alooks (insert_stage val d cands) k =
      ofirst (alooks d k) (alooks (cands.filter (fun p => val p.1)) k) := by
  induction cands with
  | nil =>
    intro d k
    simp [insert_stage, alooks]
    cases alooks d k <;> simp [ofirst]
  | cons p rest ih =>
    intro d k
    rw [insert_stage_cons]
    by_cases hv : val p.1
    · by_cases hn : (alooks d p.1).isNone
      · simp only [hn, hv, and_self, if_true]
        rw [ih]
        rw [alooks_append, alooks_singleton]
        have hdn : alooks d p.1 = none := Option.isNone_iff_eq_none.mp hn
        by_cases hk : k = p.1
        · subst hk
          simp [hdn, ofirst, List.filter_cons, hv, alooks]
        · simp [List.filter_cons, hv, alooks, hk]
          rw [ofirst_assoc, ofirst_none]
      · simp only [hn, false_and, if_false]
        rw [ih]
        have hds : ∃ v, alooks d p.1 = some v := by
          cases h : alooks d p.1
          · simp [h] at hn
          · exact ⟨_, rfl⟩
        obtain ⟨v, hv2⟩ := hds
        by_cases hk : k = p.1
        · subst hk
          simp [hv2, ofirst, List.filter_cons, hv, alooks]
        · simp [List.filter_cons, hv, alooks, hk]
    · simp only [hv, and_false, if_false]
      rw [ih]
      simp [List.filter_cons, hv]

theorem insert_stage_keys_nodup (val : Card → Bool)
    (cands : List (Card × String)) :
    ∀ d, ((d.map Prod.fst).Nodup) →
      (((insert_stage val d cands).map Prod.fst).Nodup) := by
  induction cands with
  | nil => intro d h; simpa [insert_stage] using h
  | cons p rest ih =>
    intro d h
    rw [insert_stage_cons]
    by_cases hc : (alooks d p.1).isNone ∧ val p.1
    · rw [if_pos hc]
      apply ih
      rw [List.map_append, List.nodup_append]
      refine ⟨h, by simp, ?_⟩
      intro a ha hb
      simp at hb
      subst hb
      have : alooks d p.1 = none := Option.isNone_iff_eq_none.mp hc.1
      exact (alooks_eq_none_iff d p.1).mp this ha
    · rw [if_neg hc]
      exact ih d h

theorem mem_insert_stage (val : Card → Bool) (cands : List (Card × String)) :
    ∀ d p, p ∈ insert_stage val d cands →
      p ∈ d ∨ (val p.1 = true ∧ p ∈ cands) := by
  induction cands with
  | nil =>
    intro d p h
    simp [insert_stage] at h
    exact Or.inl h
  | cons q rest ih =>
    intro d p h
    rw [insert_stage_cons] at h
    by_cases hc : (alooks d q.1).isNone ∧ val q.1
    · simp only [hc, if_true] at h
      rcases ih _ p h with h2 | h2
      · rcases List.mem_append.mp h2 with h3 | h3
        · exact Or.inl h3
        · simp at h3
          subst h3
          exact Or.inr ⟨hc.2, List.mem_cons_self _ _⟩
      · exact Or.inr ⟨h2.1, List.mem_cons_of_mem _ h2.2⟩
    · simp only [hc, if_false] at h
      rcases ih _ p h with h2 | h2
      · exact Or.inl h2
      · exact Or.inr ⟨h2.1, List.mem_cons_of_mem _ h2.2⟩

theorem assign_stage_eq_insert (val : Card → Bool) (L : String)
    (cands : List (Card × String)) :
    ∀ d, (∀ q ∈ d, q.2 = L) → (∀ p ∈ cands, p.2 = L) →
      assign_stage val d cands = insert_stage val d cands := by
  induction cands with
  | nil => intro d _ _; rfl
  | cons p rest ih =>
    intro d hd hc
    have hpL : p.2 = L := hc p (List.mem_cons_self _ _)
    have hrest : ∀ q ∈ rest, q.2 = L := fun q hq => hc q (List.mem_cons_of_mem _ hq)
    show assign_stage val (if val p.1 then dict_assign d p.1 p.2 else d) rest =
      insert_stage val
        (if (alooks d p.1).isNone ∧ val p.1 then d ++ [p] else d) rest
    by_cases hv : val p.1
    · by_cases hn : (alooks d p.1).isNone
      · have hdn : alooks d p.1 = none := Option.isNone_iff_eq_none.mp hn
        have : dict_assign d p.1 p.2 = d ++ [p] := by
          simp [dict_assign, hdn]
        rw [if_pos hv, this, if_pos ⟨hn, hv⟩]
        apply ih
        · intro q hq
          rcases List.mem_append.mp hq with h | h
          · exact hd q h
          · simp at h
            subst h
            exact hpL
        · exact hrest
      · have : dict_assign d p.1 p.2 = d := by
          have hs : (alooks d p.1).isSome := by
            cases h : alooks d p.1
            · simp [h] at hn
            · simp
          simp only [dict_assign, hs, if_true]
          have hmap : List.map (fun q => if q.1 = p.1 then (p.1, p.2) else q) d =
              List.map id d := by
            apply List.map_congr_left
            intro q hq
            by_cases hq1 : q.1 = p.1
            · rw [if_pos hq1]
              have h2 : q.2 = L := hd q hq
              have h3 : (p.1, p.2) = (q.1, q.2) := by rw [hq1, hpL, h2]
              rw [h3]
              simp
            · rw [if_neg hq1]
              rfl
          rw [hmap, List.map_id]
        rw [if_pos hv, this, if_neg (by simp [hn])]
        exact ih d hd hrest
    · rw [if_neg hv, if_neg (by simp [hv])]
      exact ih d hd hrest

theorem alooks_eq_some_of_mem_nodup {d : List (Card × String)}
    {k : Card} {v : String}
    (hnd : (d.map Prod.fst).Nodup) (hm : (k, v) ∈ d) : alooks d k = some v := by
  induction d with
  | nil => simp at hm
  | cons p t ih =>
    obtain ⟨a, s⟩ := p
    simp only [List.map_cons, List.nodup_cons] at hnd
    rcases List.mem_cons.mp hm with h | h
    · have h1 : k = a := congrArg Prod.fst h
      have h2 : v = s := congrArg Prod.snd h
      subst h1; subst h2
      simp [alooks]
    · have hka : k ≠ a := by
        intro he
        exact hnd.1 (he ▸ (List.mem_map.mpr ⟨(k, v), h, rfl⟩))
      simp [alooks, hka, ih hnd.2 h]

theorem mem_of_alooks_eq_some {d : List (Card × String)} {k : Card} {v : String}
    (h : alooks d k = some v) : (k, v) ∈ d := by
  induction d with
  | nil => simp [alooks] at h
  | cons p t ih =>
    obtain ⟨a, s⟩ := p
    by_cases hka : k = a
    · subst hka
      simp [alooks] at h
      simp [h]
    · simp [alooks, hka] at h
      exact List.mem_cons_of_mem _ (ih h)

theorem find_outs_eq_insert_chain (oracle : List Card → Option Nat)
    (hole community : List Card) :
    find_outs oracle hole community =
      insert_stage (validates_as_out oracle hole community)
        (insert_stage (validates_as_out oracle hole community)
          (insert_stage (validates_as_out oracle hole community)
            (insert_stage (validates_as_out oracle hole community)
              (insert_stage (validates_as_out oracle hole community)
                (insert_stage (validates_as_out oracle hole community)
                  (insert_stage (validates_as_out oracle hole community) []
                    ((find_royal_flush_outs hole community).map
                      (fun p => (p.1, "royal flush"))))
                  ((find_straight_flush_outs hole community).map
                    (fun p => (p.1, "straight flush"))))
                (find_flush_outs hole community))
              (find_straight_outs hole community))
            ((find_overcard_outs hole community).map (fun p => (p.1, "pair"))))
          ((find_improvement_outs hole community).map
            (fun p => (p.1, underscore_to_space p.2))))
        ((find_two_pair_outs hole community).map (fun p => (p.1, "two pair"))) := by
  have h1 : assign_stage (validates_as_out oracle hole community) []
      ((find_royal_flush_outs hole community).map
        (fun p => (p.1, "royal flush"))) =
      insert_stage (validates_as_out oracle hole community) []
        ((find_royal_flush_outs hole community).map
          (fun p => (p.1, "royal flush"))) := by
    apply assign_stage_eq_insert _ "royal flush"
    · intro q hq
      simp at hq
    · intro p hp
      rcases List.mem_map.mp hp with ⟨q, _, he⟩
      rw [← he]
  simp only [find_outs]
  rw [h1]

theorem find_outs_alooks (oracle : List Card → Option Nat)
    (hole community : List Card) (k : Card) :
    alooks (find_outs oracle hole community) k =
      alooks (validated_candidates oracle hole community) k := by
  rw [find_outs_eq_insert_chain]
  simp only [alooks_insert_stage, validated_candidates, priority_candidates,
    List.filter_append, alooks_append, ofirst_assoc]
  simp [alooks, ofirst_none]

theorem find_outs_keys_nodup (oracle : List Card → Option Nat)
    (hole community : List Card) :
    ((find_outs oracle hole community).map Prod.fst).Nodup := by
  rw [find_outs_eq_insert_chain]
  apply insert_stage_keys_nodup
  apply insert_stage_keys_nodup
  apply insert_stage_keys_nodup
  apply insert_stage_keys_nodup
  apply insert_stage_keys_nodup
  apply insert_stage_keys_nodup
  apply insert_stage_keys_nodup
  simp

theorem mem_find_outs (oracle : List Card → Option Nat)
    (hole community : List Card) (p : Card × String)
    (h : p ∈ find_outs oracle hole community) :
    validates_as_out oracle hole community p.1 = true ∧
      p ∈ priority_candidates hole community := by
  rw [find_outs_eq_insert_chain] at h
  unfold priority_candidates
  rcases mem_insert_stage _ _ _ _ h with h | ⟨hv, hm⟩
  · rcases mem_insert_stage _ _ _ _ h with h | ⟨hv, hm⟩
    · rcases mem_insert_stage _ _ _ _ h with h | ⟨hv, hm⟩
      · rcases mem_insert_stage _ _ _ _ h with h | ⟨hv, hm⟩
        · rcases mem_insert_stage _ _ _ _ h with h | ⟨hv, hm⟩
          · rcases mem_insert_stage _ _ _ _ h with h | ⟨hv, hm⟩
            · rcases mem_insert_stage _ _ _ _ h with h | ⟨hv, hm⟩
              · simp at h
              · exact ⟨hv, by simp [hm]⟩
            · exact ⟨hv, by simp [hm]⟩
          · exact ⟨hv, by simp [hm]⟩
        · exact ⟨hv, by simp [hm]⟩
      · exact ⟨hv, by simp [hm]⟩
    · exact ⟨hv, by simp [hm]⟩
  · exact ⟨hv, by simp [hm]⟩

theorem find_flush_outs_labels (hole community : List Card)
    (p : Card × String) (h : p ∈ find_flush_outs hole community) :
    p.2 = "flush" := by
  simp only [find_flush_outs, List.mem_bind] at h
  obtain ⟨q, _, hp⟩ := h
  by_cases hq : 4 ≤ q.2
  · simp only [hq, if_true, List.mem_map] at hp
    obtain ⟨c, _, he⟩ := hp
    rw [← he]
  · simp [hq] at hp

theorem find_straight_outs_labels (hole community : List Card)
    (p : Card × String) (h : p ∈ find_straight_outs hole community) :
    p.2 = "straight" := by
  simp only [find_straight_outs, List.mem_bind] at h
  obtain ⟨r, _, hp⟩ := h
  simp only [List.mem_map] at hp
  obtain ⟨c, _, he⟩ := hp
  rw [← he]
  rfl

theorem find_improvement_outs_labels (hole community : List Card)
    (p : Card × String) (h : p ∈ find_improvement_outs hole community) :
    p.2 = "three of a kind" ∨ p.2 = "four of a kind" ∨ p.2 = "full house" := by
  simp only [find_improvement_outs, List.mem_bind] at h
  obtain ⟨q, _, hp⟩ := h
  by_cases h2 : q.2 = 2
  · rw [if_pos h2] at hp
    by_cases hskip : (counts_by (fun c => c.value) community).any
        (fun p => 2 ≤ p.2) ∧
        1 ≤ (alook (counts_by (fun c => c.value) community) q.1).getD 0
    · rw [if_pos hskip] at hp
      simp at hp
    · rw [if_neg hskip] at hp
      rcases List.mem_map.mp hp with ⟨c, _, he⟩
      left
      rw [← he]
  · rw [if_neg h2] at hp
    by_cases h3 : q.2 = 3
    · rw [if_pos h3] at hp
      rcases List.mem_append.mp hp with hp | hp
      · rcases List.mem_map.mp hp with ⟨c, _, he⟩
        right; left
        rw [← he]
      · simp only [List.mem_bind] at hp
        obtain ⟨q2, _, hp⟩ := hp
        by_cases hq2 : q2.1 ≠ q.1 ∧ 1 ≤ q2.2
        · rw [if_pos hq2] at hp
          simp only [List.mem_bind] at hp
          obtain ⟨c, _, hp⟩ := hp
          by_cases hc1 : (alook (counts_by (fun c => c.value)
              (hole ++ community)) q2.1).getD 0 = 1
          · rw [if_pos hc1] at hp
            simp only [List.mem_singleton] at hp
            right; right
            rw [hp]
          · rw [if_neg hc1] at hp
            simp at hp
        · rw [if_neg hq2] at hp
          simp at hp
    · rw [if_neg h3] at hp
      simp at hp

theorem alooks_filter_const (val : Card → Bool) (L : String)
    (A : List (Card × String)) (k : Card)
    (hall : ∀ p ∈ A, p.2 = L) (hv : val k = true)
    (hk : k ∈ A.map Prod.fst) :
    alooks (A.filter (fun p => val p.1)) k = some L := by
  induction A with
  | nil => simp at hk
  | cons q t ih =>
    obtain ⟨a, s⟩ := q
    have hsl : s = L := hall (a, s) (List.mem_cons_self _ _)
    by_cases hka : k = a
    · subst hka
      rw [List.filter_cons, if_pos (by simpa using hv)]
      simp [alooks, hsl]
    · have hk2 : k ∈ t.map Prod.fst := by
        rcases List.mem_map.mp hk with ⟨q2, hq2, he⟩
        rcases List.mem_cons.mp hq2 with h | h
        · exfalso
          apply hka
          rw [← he, h]
        · exact List.mem_map.mpr ⟨q2, h, he⟩
      have ht : ∀ p ∈ t, p.2 = L := fun p hp => hall p (List.mem_cons_of_mem _ hp)
      rw [List.filter_cons]
      by_cases hva : val a
      · rw [if_pos (by simpa using hva)]
        simp only [alooks, hka, if_false]
        exact ih ht hk2
      · rw [if_neg (by simpa using hva)]
        exact ih ht hk2

/-- C1: for every hand context and every out returned by the classifier,
re-evaluating the hand with the out's card appended to the community
cards yields a strictly better (strictly lower) rank than the rank
without it.  (Stated for all inputs and any oracle: every entry of
`find_outs` passed `_validates_as_out`.) -/
theorem claim_C1 (oracle : List Card → Option Nat)
    (hole community : List Card) (p : Card × String)
    (h : p ∈ find_outs oracle hole community) :
    evaluate_hand_strength oracle hole (community ++ [p.1]) <
      evaluate_hand_strength oracle hole community :=
  of_decide_eq_true (mem_find_outs oracle hole community p h).1

/-- Witness for C1: with the concrete oracle, hole As Kd and board
Qc 7h 2s, the ace of hearts is an out (labelled `pair`) and appending it
strictly improves the rank. -/
theorem claim_C1_witness :
    evaluate_hand_strength poker_oracle [Card.mk 14 0, Card.mk 13 2]
        ([Card.mk 12 3, Card.mk 7 1, Card.mk 2 0] ++ [Card.mk 14 1]) <
      evaluate_hand_strength poker_oracle [Card.mk 14 0, Card.mk 13 2]
        [Card.mk 12 3, Card.mk 7 1, Card.mk 2 0] :=
  claim_C1 poker_oracle [Card.mk 14 0, Card.mk 13 2]
    [Card.mk 12 3, Card.mk 7 1, Card.mk 2 0] (Card.mk 14 1, "pair") (by decide)

/-- C2: each card appears at most once in the result of `find_outs`, and
its recorded draw type is the one of the highest-priority family it
qualifies for (membership in the result is exactly first-match lookup in
the priority-ordered, validation-filtered candidate list); in particular
a validated royal-flush candidate is always reported as `royal flush`. -/
theorem claim_C2 (oracle : List Card → Option Nat)
    (hole community : List Card) :
    ((find_outs oracle hole community).map Prod.fst).Nodup ∧
    (∀ (c : Card) (t : String), (c, t) ∈ find_outs oracle hole community ↔
      alooks (validated_candidates oracle hole community) c = some t) ∧
    (∀ c : Card, validates_as_out oracle hole community c = true →
      c ∈ (find_royal_flush_outs hole community).map Prod.fst →
      (c, "royal flush") ∈ find_outs oracle hole community) := by
  refine ⟨find_outs_keys_nodup oracle hole community, ?_, ?_⟩
  · intro c t
    constructor
    · intro hm
      rw [← find_outs_alooks]
      exact alooks_eq_some_of_mem_nodup (find_outs_keys_nodup oracle hole community) hm
    · intro hl
      rw [← find_outs_alooks] at hl
      exact mem_of_alooks_eq_some hl
  · intro c hv hr
    have hfirst : alooks (((find_royal_flush_outs hole community).map
        (fun p => (p.1, "royal flush"))).filter
          (fun p => validates_as_out oracle hole community p.1)) c =
        some "royal flush" := by
      apply alooks_filter_const
      · intro p hp
        rcases List.mem_map.mp hp with ⟨q, _, he⟩
        rw [← he]
      · exact hv
      · simpa [List.map_map, Function.comp] using hr
    have hl : alooks (validated_candidates oracle hole community) c =
        some "royal flush" := by
      unfold validated_candidates priority_candidates
      simp only [List.append_assoc]
      rw [List.filter_append, alooks_append, hfirst]
      rfl
    rw [← find_outs_alooks] at hl
    exact mem_of_alooks_eq_some hl

/-- C10: every draw_type string in the public result of `find_outs` is
one of the nine space-separated labels; the underscored internal forms
and the internal `overcard` label never appear. -/
theorem claim_C10 (oracle : List Card → Option Nat)
    (hole community : List Card) (p : Card × String)
    (h : p ∈ find_outs oracle hole community) :
    p.2 ∈ ["royal flush", "straight flush", "flush", "straight", "pair",
      "three of a kind", "four of a kind", "full house", "two pair"] := by
  have hm := (mem_find_outs oracle hole community p h).2
  unfold priority_candidates at hm
  simp only [List.append_assoc, List.mem_append] at hm
  rcases hm with hm | hm | hm | hm | hm | hm | hm
  · rcases List.mem_map.mp hm with ⟨q, _, he⟩
    rw [← he]
    simp
  · rcases List.mem_map.mp hm with ⟨q, _, he⟩
    rw [← he]
    simp
  · have := find_flush_outs_labels hole community p hm
    simp [this]
  · have := find_straight_outs_labels hole community p hm
    simp [this]
  · rcases List.mem_map.mp hm with ⟨q, _, he⟩
    rw [← he]
    simp
  · rcases List.mem_map.mp hm with ⟨q, hq, he⟩
    rcases find_improvement_outs_labels hole community q hq with h1 | h1 | h1 <;>
      · rw [← he]
        simp only [h1]
        decide
  · rcases List.mem_map.mp hm with ⟨q, _, he⟩
    rw [← he]
    simp

/-- Witness for C10: a concrete classifier result whose single entry is
labelled `pair` (from the overcard family). -/
theorem claim_C10_witness :
    ("pair" : String) ∈ ["royal flush", "straight flush", "flush",
      "straight", "pair", "three of a kind", "four of a kind", "full house",
      "two pair"] :=
  claim_C10 poker_oracle [Card.mk 14 0, Card.mk 13 2]
    [Card.mk 12 3, Card.mk 7 1, Card.mk 2 0] (Card.mk 14 1, "pair") (by decide)

theorem counts_any_iff (f : Card → Nat) (cs : List Card) (n : Nat)
    (hn : 0 < n) :
    ((counts_by f cs).any (fun p => n ≤ p.2) = true) ↔
      ∃ k, n ≤ count_key f cs k := by
  rw [List.any_eq_true]
  constructor
  · rintro ⟨p, hp, hle⟩
    have h := (mem_counts_by f cs p).mp hp
    exact ⟨p.1, by rw [h.1]; exact of_decide_eq_true hle⟩
  · rintro ⟨k, hk⟩
    refine ⟨(k, count_key f cs k), ?_, by simpa using hk⟩
    exact (mem_counts_by f cs _).mpr ⟨rfl, by omega⟩

theorem exists_mem_of_count_pos (f : Card → Nat) (cs : List Card) (k : Nat)
    (h : 0 < count_key f cs k) : ∃ c ∈ cs, f c = k := by
  unfold count_key at h
  rw [List.length_pos] at h
  obtain ⟨c, hc⟩ := List.exists_mem_of_ne_nil _ h
  have := List.mem_filter.mp hc
  exact ⟨c, this.1, by simpa using this.2⟩

/-- C3 counterexample: hole Ks 2h on board Kd 7c 7h.  The rank K is held
exactly twice and is not a paired rank on the board (a single K sits
there), so the claim asserts its remaining cards are trips candidates;
the code skips them because the board is paired (at 7) and K touches the
board. -/
theorem claim_C3_counterexample :
    count_key (fun c => c.value)
        ([Card.mk 13 0, Card.mk 2 1] ++ [Card.mk 13 2, Card.mk 7 3, Card.mk 7 1])
        13 = 2 ∧
    count_key (fun c => c.value) [Card.mk 13 2, Card.mk 7 3, Card.mk 7 1] 13 = 1 ∧
    Card.mk 13 1 ∈ get_remaining_deck
      ([Card.mk 13 0, Card.mk 2 1] ++ [Card.mk 13 2, Card.mk 7 3, Card.mk 7 1]) ∧
    (Card.mk 13 1, "three of a kind") ∉
      find_improvement_outs [Card.mk 13 0, Card.mk 2 1]
        [Card.mk 13 2, Card.mk 7 3, Card.mk 7 1] := by
  decide

/-- C3 (amended): a rank held exactly twice contributes its remaining
cards as trips candidates iff it is NOT the case that the board has some
paired rank AND the rank appears at least once on the board; a rank
paired between hole and a single board card on a board paired elsewhere
is excluded. -/
theorem claim_C3_amended (hole community : List Card) (card : Card) :
    (card, "three of a kind") ∈ find_improvement_outs hole community ↔
      card ∈ get_remaining_deck (hole ++ community) ∧
      count_key (fun c => c.value) (hole ++ community) card.value = 2 ∧
      ¬ ((∃ r, 2 ≤ count_key (fun c => c.value) community r) ∧
         1 ≤ count_key (fun c => c.value) community card.value) := by
  constructor
  · intro h
    simp only [find_improvement_outs, List.mem_bind] at h
    obtain ⟨q, hq, hp⟩ := h
    have hqc := (mem_counts_by (fun c => c.value) (hole ++ community) q).mp hq
    by_cases h2 : q.2 = 2
    · rw [if_pos h2] at hp
      by_cases hskip : (counts_by (fun c => c.value) community).any
          (fun p => 2 ≤ p.2) ∧
          1 ≤ (alook (counts_by (fun c => c.value) community) q.1).getD 0
      · rw [if_pos hskip] at hp
        simp at hp
      · rw [if_neg hskip] at hp
        rcases List.mem_map.mp hp with ⟨c, hc, he⟩
        have hcf := List.mem_filter.mp hc
        have hcv : c.value = q.1 := by simpa using hcf.2
        have hce : c = card := congrArg Prod.fst he
        subst hce
        refine ⟨hcf.1, ?_, ?_⟩
        · rw [hcv, hqc.1, h2]
        · intro hcon
          apply hskip
          rw [counts_by_getD, ← hcv]
          refine ⟨?_, hcon.2⟩
          rw [counts_any_iff _ _ 2 (by omega)]
          exact hcon.1
    · exfalso
      rw [if_neg h2] at hp
      by_cases h3 : q.2 = 3
      · rw [if_pos h3] at hp
        rcases List.mem_append.mp hp with hp | hp
        · rcases List.mem_map.mp hp with ⟨c, _, he⟩
          have : "three of a kind" = "four of a kind" := congrArg Prod.snd he.symm
          exact absurd this (by decide)
        · simp only [List.mem_bind] at hp
          obtain ⟨q2, _, hp⟩ := hp
          by_cases hq2 : q2.1 ≠ q.1 ∧ 1 ≤ q2.2
          · rw [if_pos hq2] at hp
            simp only [List.mem_bind] at hp
            obtain ⟨c, _, hp⟩ := hp
            by_cases hc1 : (alook (counts_by (fun c => c.value)
                (hole ++ community)) q2.1).getD 0 = 1
            · rw [if_pos hc1] at hp
              simp only [List.mem_singleton] at hp
              have : "three of a kind" = "full house" := congrArg Prod.snd hp
              exact absurd this (by decide)
            · rw [if_neg hc1] at hp
              simp at hp
          · rw [if_neg hq2] at hp
            simp at hp
      · rw [if_neg h3] at hp
        simp at hp
  · rintro ⟨hmem, hcount, hskip⟩
    simp only [find_improvement_outs, List.mem_bind]
    refine ⟨(card.value, 2), ?_, ?_⟩
    · exact (mem_counts_by _ _ _).mpr ⟨hcount, by omega⟩
    · rw [if_pos rfl]
      rw [if_neg ?_]
      · exact List.mem_map.mpr ⟨card,
          List.mem_filter.mpr ⟨hmem, by simp⟩, rfl⟩
      · intro hcon
        apply hskip
        constructor
        · rw [← counts_any_iff _ _ 2 (by omega)]
          exact hcon.1
        · have := hcon.2
          rwa [counts_by_getD] at this

theorem counts_any_eq_iff (f : Card → Nat) (cs : List Card) (n : Nat)
    (hn : 0 < n) :
    ((counts_by f cs).any (fun p => p.2 = n) = true) ↔
      ∃ c ∈ cs, count_key f cs (f c) = n := by
  rw [List.any_eq_true]
  constructor
  · rintro ⟨p, hp, he⟩
    have h := (mem_counts_by f cs p).mp hp
    have hen : p.2 = n := of_decide_eq_true he
    obtain ⟨c, hc, hfc⟩ := exists_mem_of_count_pos f cs p.1 (by omega)
    exact ⟨c, hc, by rw [hfc, h.1, hen]⟩
  · rintro ⟨c, hc, hcount⟩
    refine ⟨(f c, n), ?_, by simp⟩
    exact (mem_counts_by f cs _).mpr ⟨hcount, hn⟩

theorem foldl_max_lt_iff (l : List Nat) (a x : Nat) :
    l.foldl Nat.max a < x ↔ a < x ∧ ∀ v ∈ l, v < x := by
  induction l generalizing a with
  | nil => simp
  | cons v t ih =>
    simp only [List.foldl_cons, ih (Nat.max a v), Nat.max_lt, List.mem_cons]
    constructor
    · rintro ⟨⟨hax, hvx⟩, hall⟩
      refine ⟨hax, fun w hw => ?_⟩
      rcases hw with h | h
      · exact h ▸ hvx
      · exact hall w h
    · rintro ⟨hax, hall⟩
      exact ⟨⟨hax, hall v (Or.inl rfl)⟩, fun w hw => hall w (Or.inr hw)⟩

theorem alooks_filter_none (val : Card → Bool) (A : List (Card × String))
    (c : Card) (h : c ∉ A.map Prod.fst) :
    alooks (A.filter (fun p => val p.1)) c = none := by
  rw [alooks_eq_none_iff]
  intro hc
  apply h
  rcases List.mem_map.mp hc with ⟨q, hq, he⟩
  exact List.mem_map.mpr ⟨q, (List.mem_filter.mp hq).1, he⟩

/-- C4: overcard outs are generated iff community cards exist, no suit
holds exactly 4 of the known cards, and fewer than 4 straight-out cards
exist; when generated, each hole card whose rank exceeds every
community-card rank contributes its remaining same-rank cards (internal
label `overcard`), and such a candidate that validates and is unclaimed
by the four higher-priority families appears in `find_outs` labelled
`pair`. -/
theorem claim_C4 (hole community : List Card) :
    (find_overcard_outs hole community =
      if community ≠ [] ∧
         (¬ ∃ c ∈ hole ++ community,
            count_key (fun x => x.suit) (hole ++ community) c.suit = 4) ∧
         (find_straight_outs hole community).length < 4
      then
        (hole.map (fun c => c.value)).bind (fun hr =>
          if ∀ b ∈ community, b.value < hr then
            ((get_remaining_deck (hole ++ community)).filter
              (fun c => c.value = hr)).map (fun c => (c, "overcard"))
          else [])
      else []) ∧
    (∀ (oracle : List Card → Option Nat) (card : Card),
      card ∈ (find_overcard_outs hole community).map Prod.fst →
      validates_as_out oracle hole community card = true →
      card ∉ (find_royal_flush_outs hole community).map Prod.fst →
      card ∉ (find_straight_flush_outs hole community).map Prod.fst →
      card ∉ (find_flush_outs hole community).map Prod.fst →
      card ∉ (find_straight_outs hole community).map Prod.fst →
      (card, "pair") ∈ find_outs oracle hole community) := by
  constructor
  · by_cases hcom : community = []
    · simp [find_overcard_outs, hcom]
    · rw [find_overcard_outs, if_neg hcom]
      by_cases hfour : (counts_by (fun c => c.suit)
          (hole ++ community)).any (fun p => p.2 = 4)
      · rw [if_pos hfour]
        rw [if_neg ?_]
        rintro ⟨_, hnf, _⟩
        apply hnf
        exact (counts_any_eq_iff (fun c => c.suit) (hole ++ community) 4
          (by omega)).mp hfour
      · rw [if_neg hfour]
        by_cases hst : 4 ≤ (find_straight_outs hole community).length
        · rw [if_pos hst, if_neg ?_]
          rintro ⟨_, _, hlt⟩
          omega
        · rw [if_neg hst, if_pos ?_]
          · apply List.bind_congr
            intro hr _
            apply if_congr _ rfl rfl
            rw [foldl_max_lt_iff]
            constructor
            · rintro ⟨_, hall⟩ b hb
              exact hall b.value (List.mem_map.mpr ⟨b, hb, rfl⟩)
            · intro hall
              obtain ⟨b0, hb0⟩ := List.exists_mem_of_ne_nil community hcom
              refine ⟨by have := hall b0 hb0; omega, ?_⟩
              intro v hv
              rcases List.mem_map.mp hv with ⟨b, hb, he⟩
              exact he ▸ hall b hb
          · refine ⟨hcom, ?_, by omega⟩
            intro hex
            exact hfour ((counts_any_eq_iff (fun c => c.suit)
              (hole ++ community) 4 (by omega)).mpr hex)
  · intro oracle card hmem hv h1 h2 h3 h4
    have hfirst : alooks (((find_overcard_outs hole community).map
        (fun p => (p.1, "pair"))).filter
          (fun p => validates_as_out oracle hole community p.1)) card =
        some "pair" := by
      apply alooks_filter_const
      · intro p hp
        rcases List.mem_map.mp hp with ⟨q, _, he⟩
        rw [← he]
      · exact hv
      · simpa [List.map_map, Function.comp] using hmem
    have hl : alooks (validated_candidates oracle hole community) card =
        some "pair" := by
      unfold validated_candidates priority_candidates
      simp only [List.append_assoc]
      rw [List.filter_append, alooks_append,
        alooks_filter_none _ _ _ (by simpa [List.map_map, Function.comp] using h1),
        ofirst_none,
        List.filter_append, alooks_append,
        alooks_filter_none _ _ _ (by simpa [List.map_map, Function.comp] using h2),
        ofirst_none,
        List.filter_append, alooks_append,
        alooks_filter_none _ _ _ h3, ofirst_none,
        List.filter_append, alooks_append,
        alooks_filter_none _ _ _ h4, ofirst_none,
        List.filter_append, alooks_append, hfirst]
      rfl
    rw [← find_outs_alooks] at hl
    exact mem_of_alooks_eq_some hl

/-- Witness for C4: with hole As Kd on board Qc 7h 2s, the ace of hearts
is an overcard candidate that validates and is claimed by no higher
family, and indeed appears in the public result labelled `pair`. -/
theorem claim_C4_witness :
    (Card.mk 14 1, "pair") ∈ find_outs poker_oracle
      [Card.mk 14 0, Card.mk 13 2] [Card.mk 12 3, Card.mk 7 1, Card.mk 2 0] :=
  (claim_C4 [Card.mk 14 0, Card.mk 13 2]
      [Card.mk 12 3, Card.mk 7 1, Card.mk 2 0]).2 poker_oracle (Card.mk 14 1)
    (by decide) (by decide) (by decide) (by decide) (by decide) (by decide)

theorem le_foldl_min_iff (g : Card × Card → Nat) (l : List (Card × Card))
    (init x : Nat) :
    x ≤ l.foldl (fun best y => if g y < best then g y else best) init ↔
      x ≤ init ∧ ∀ y ∈ l, x ≤ g y := by
  induction l generalizing init with
  | nil => simp
  | cons y t ih =>
    simp only [List.foldl_cons, ih, List.mem_cons]
    by_cases hgy : g y < init
    · rw [if_pos hgy]
      constructor
      · rintro ⟨hxy, hall⟩
        exact ⟨by omega, fun z hz => by
          rcases hz with h | h
          · exact h ▸ hxy
          · exact hall z h⟩
      · rintro ⟨hxi, hall⟩
        exact ⟨hall y (Or.inl rfl), fun z hz => hall z (Or.inr hz)⟩
    · rw [if_neg hgy]
      constructor
      · rintro ⟨hxi, hall⟩
        refine ⟨hxi, fun z hz => ?_⟩
        rcases hz with h | h
        · subst h
          omega
        · exact hall z h
      · rintro ⟨hxi, hall⟩
        exact ⟨hxi, fun z hz => hall z (Or.inr hz)⟩

theorem le_find_best_iff (oracle : List Card → Option Nat)
    (board all_known : List Card) (x : Nat) (hb : board.length ≤ 5) :
    x ≤ find_best_possible_hand_strength_excluding_known oracle board all_known ↔
      x ≤ 9999 ∧ ∀ pq ∈ pairs_of (get_remaining_deck all_known),
        x ≤ evaluate_hand_strength oracle [pq.1, pq.2] board := by
  unfold find_best_possible_hand_strength_excluding_known
  rw [if_neg (by omega)]
  exact le_foldl_min_iff
    (fun pq => evaluate_hand_strength oracle [pq.1, pq.2] board) _ 9999 x

/-- C5 (amended): the nuts evaluator returns true iff the hand uses at
least one hole card (filler-comparison test) and the player's rank is at
most the best rank achievable by any remaining 2-card combination —
EXCEPT in completion mode when the flush fast-path scenario triggers,
where it returns the fast-path criterion instead.  The last conjunct
unfolds the tracked minimum into the per-combination bound. -/
theorem claim_C5_amended (oracle : List Card → Option Nat)
    (hole community : List Card) (h2 : hole.length = 2) :
    (community.length = 5 →
      (is_nuts_when_completed oracle hole community none = true ↔
        (uses_at_least_one_hole_card oracle hole community = true ∧
         evaluate_hand_strength oracle hole community ≤
           find_best_possible_hand_strength_excluding_known oracle community
             (hole ++ community)))) ∧
    (∀ c : Card, community.length ≤ 4 →
      is_flush_nuts_scenario hole (community ++ [c]) c = false →
      (is_nuts_when_completed oracle hole community (some c) = true ↔
        (uses_at_least_one_hole_card oracle hole (community ++ [c]) = true ∧
         evaluate_hand_strength oracle hole (community ++ [c]) ≤
           find_best_possible_hand_strength_excluding_known oracle
             (community ++ [c]) (hole ++ (community ++ [c]))))) ∧
    (∀ c : Card, community.length ≤ 4 →
      is_flush_nuts_scenario hole (community ++ [c]) c = true →
      is_nuts_when_completed oracle hole community (some c) =
        check_flush_nuts hole (community ++ [c]) c) ∧
    (∀ (x : Nat) (board all_known : List Card), board.length ≤ 5 →
      (x ≤ find_best_possible_hand_strength_excluding_known oracle board
          all_known ↔
        x ≤ 9999 ∧ ∀ pq ∈ pairs_of (get_remaining_deck all_known),
          x ≤ evaluate_hand_strength oracle [pq.1, pq.2] board)) := by
  refine ⟨?_, ?_, ?_, ?_⟩
  · intro h5
    rw [is_nuts_when_completed, if_neg (by omega), if_neg (by omega)]
    by_cases hu : uses_at_least_one_hole_card oracle hole community
    · simp [hu]
    · simp [hu]
  · intro c hc4 hsc
    rw [is_nuts_when_completed, if_neg (by omega)]
    have hlen : ¬ 5 < (community ++ [c]).length := by
      simp only [List.length_append, List.length_singleton]
      omega
    rw [if_neg hlen, if_neg (by simp [hsc])]
    by_cases hu : uses_at_least_one_hole_card oracle hole (community ++ [c])
    · simp [hu]
    · simp [hu]
  · intro c hc4 hsc
    rw [is_nuts_when_completed, if_neg (by omega)]
    have hlen : ¬ 5 < (community ++ [c]).length := by
      simp only [List.length_append, List.length_singleton]
      omega
    rw [if_neg hlen, if_pos hsc]
  · intro x board all_known hb
    exact le_find_best_iff oracle board all_known x hb

/-- Witness for the amended C5: at a concrete flush completion the
evaluator returns exactly the fast-path criterion. -/
theorem claim_C5_amended_witness :
    is_nuts_when_completed poker_oracle [Card.mk 13 1, Card.mk 12 1]
        [Card.mk 14 1, Card.mk 7 1, Card.mk 3 0] (some (Card.mk 2 1)) =
      check_flush_nuts [Card.mk 13 1, Card.mk 12 1]
        ([Card.mk 14 1, Card.mk 7 1, Card.mk 3 0] ++ [Card.mk 2 1])
        (Card.mk 2 1) :=
  (claim_C5_amended poker_oracle [Card.mk 13 1, Card.mk 12 1]
      [Card.mk 14 1, Card.mk 7 1, Card.mk 3 0] (by decide)).2.2.1
    (Card.mk 2 1) (by decide) (by decide)

theorem count_key_disjoint (f : Card → Nat) (cs : List Card) (k1 k2 : Nat)
    (hne : k1 ≠ k2) : count_key f cs k1 + count_key f cs k2 ≤ cs.length := by
  induction cs with
  | nil => simp [count_key]
  | cons c t ih =>
    unfold count_key at *
    simp only [List.filter_cons, List.length_cons]
    by_cases h1 : f c = k1 <;> by_cases h2 : f c = k2
    · exact absurd (h1 ▸ h2) hne
    · rw [if_pos (by simpa using h1), if_neg (by simpa using h2)]
      simp only [List.length_cons]
      omega
    · rw [if_neg (by simpa using h1), if_pos (by simpa using h2)]
      simp only [List.length_cons]
      omega
    · rw [if_neg (by simpa using h1), if_neg (by simpa using h2)]
      omega

theorem count_key_eq_zero_iff (f : Card → Nat) (cs : List Card) (k : Nat) :
    count_key f cs k = 0 ↔ k ∉ cs.map f := by
  unfold count_key
  rw [List.length_eq_zero, List.filter_eq_nil]
  simp

theorem count_key_le_one_of_nodup (f : Card → Nat) (cs : List Card)
    (h : (cs.map f).Nodup) (r : Nat) : count_key f cs r ≤ 1 := by
  induction cs with
  | nil => simp [count_key]
  | cons c t ih =>
    simp only [List.map_cons, List.nodup_cons] at h
    unfold count_key
    rw [List.filter_cons]
    by_cases hc : f c = r
    · rw [if_pos (by simpa using hc)]
      have hz : count_key f t r = 0 :=
        (count_key_eq_zero_iff f t r).mpr (hc ▸ h.1)
      unfold count_key at hz
      simp [hz]
    · rw [if_neg (by simpa using hc)]
      exact ih h.2

theorem first_flush_suit_eq (all : List Card) (fs : Nat) (hlen : all.length ≤ 7)
    (hfs : 5 ≤ count_key (fun c => c.suit) all fs) :
    first_flush_suit all = some fs := by
  unfold first_flush_suit
  cases hfind : (counts_by (fun c => c.suit) all).find? (fun p => 5 ≤ p.2) with
  | none =>
    exfalso
    have hmem : (fs, count_key (fun c => c.suit) all fs) ∈
        counts_by (fun c => c.suit) all :=
      (mem_counts_by _ _ _).mpr ⟨rfl, by omega⟩
    have := List.find?_eq_none.mp hfind _ hmem
    simp at this
    omega
  | some p =>
    have hpred := List.find?_some hfind
    have hmem := List.mem_of_find?_eq_some hfind
    have hc := (mem_counts_by _ _ p).mp hmem
    have h5 : 5 ≤ count_key (fun c => c.suit) all p.1 := by
      rw [hc.1]
      exact of_decide_eq_true hpred
    have hp1 : p.1 = fs := by
      by_contra hne
      have := count_key_disjoint (fun c => c.suit) all p.1 fs hne
      omega
    simp [hp1]

/-- C6 (amended): whenever the flush fast-path preconditions hold
(at least 5 known cards of suit `fs`, an unpaired completed board, no
straight-flush potential in the flush suit), the completion-mode nuts
evaluator returns exactly the fast-path criterion: the ace of the flush
suit is a hole card or the completing card, at least one hole card is of
the flush suit, and the flush is not entirely formed from the board's
own cards.  This does NOT always coincide with the general exhaustive
check (see the counterexample). -/
theorem claim_C6_amended (oracle : List Card → Option Nat)
    (hole community : List Card) (c : Card) (fs : Nat)
    (h2 : hole.length = 2) (hc4 : community.length ≤ 4) (hnc : c ∉ community)
    (hflush : 5 ≤ count_key (fun x => x.suit) (hole ++ (community ++ [c])) fs)
    (hnopair : ∀ r, count_key (fun x => x.value) (community ++ [c]) r ≤ 1)
    (hnosf : has_straight_flush_potential (sort_asc
        (((hole ++ (community ++ [c])).filter (fun x => x.suit = fs)).map
          (fun x => x.value))) = false) :
    is_flush_nuts_scenario hole (community ++ [c]) c = true ∧
    (is_nuts_when_completed oracle hole community (some c) = true ↔
      ((Card.mk 14 fs ∈ hole ∨ c = Card.mk 14 fs) ∧
       (∃ hc2 ∈ hole, hc2.suit = fs) ∧
       ((community ++ [c]).filter (fun x => x.suit = fs)).length < 5)) := by
  have hlen : (hole ++ (community ++ [c])).length ≤ 7 := by
    simp only [List.length_append, List.length_singleton, h2]
    omega
  have hffs : first_flush_suit (hole ++ (community ++ [c])) = some fs :=
    first_flush_suit_eq _ fs hlen hflush
  have hpair : ((counts_by (fun x => x.value) (community ++ [c])).any
      (fun p => 2 ≤ p.2)) = false := by
    rw [Bool.eq_false_iff]
    intro hany
    obtain ⟨k, hk⟩ := (counts_any_iff (fun x => x.value) (community ++ [c]) 2
      (by omega)).mp hany
    have := hnopair k
    omega
  have hscen : is_flush_nuts_scenario hole (community ++ [c]) c = true := by
    rw [is_flush_nuts_scenario]
    simp only [hffs, hpair, Bool.false_eq_true, if_false, hnosf]
    rfl
  refine ⟨hscen, ?_⟩
  rw [is_nuts_when_completed, if_neg (by omega)]
  have hlenb : ¬ 5 < (community ++ [c]).length := by
    simp only [List.length_append, List.length_singleton]
    omega
  rw [if_neg hlenb, if_pos hscen]
  rw [check_flush_nuts]
  simp only [hffs]
  have hace : (hole.any (fun x => decide (x.value = 14 ∧ x.suit = fs))) = true ↔
      Card.mk 14 fs ∈ hole := by
    rw [List.any_eq_true]
    constructor
    · rintro ⟨x, hx, hp⟩
      have h := of_decide_eq_true hp
      have : x = Card.mk 14 fs := by
        cases x
        simp at h
        simp [h]
      exact this ▸ hx
    · intro h
      exact ⟨Card.mk 14 fs, h, by simp⟩
  have hcace : (decide (c.value = 14 ∧ c.suit = fs) = true) ↔
      c = Card.mk 14 fs := by
    rw [decide_eq_true_iff]
    cases c
    simp [Card.mk.injEq]
  have hcount : ((community ++ [c]).filter
        (fun x => decide (x.suit = fs ∧ x ≠ c))).length +
      (if c.suit = fs then 1 else 0) =
      ((community ++ [c]).filter (fun x => x.suit = fs)).length := by
    rw [List.filter_append, List.filter_append]
    have hcom : community.filter (fun x => decide (x.suit = fs ∧ x ≠ c)) =
        community.filter (fun x => decide (x.suit = fs)) := by
      apply List.filter_congr
      intro x hx
      have : x ≠ c := fun he => hnc (he ▸ hx)
      simp [this]
    rw [hcom]
    simp only [List.length_append]
    have hc1 : ([c].filter (fun x => decide (x.suit = fs ∧ x ≠ c))).length = 0 := by
      simp [List.filter_singleton]
    have hc2 : ([c].filter (fun x => decide (x.suit = fs))).length =
        (if c.suit = fs then 1 else 0) := by
      rw [List.filter_singleton]
      by_cases h : c.suit = fs <;> simp [h]
    rw [hc1, hc2]
    omega
  by_cases hA : (hole.any (fun x => decide (x.value = 14 ∧ x.suit = fs)) ||
      decide (c.value = 14 ∧ c.suit = fs)) = true
  · rw [if_pos hA]
    by_cases hZ : (hole.filter (fun x => x.suit = fs)).length = 0
    · rw [if_pos hZ]
      simp only [Bool.false_eq_true, false_iff]
      rintro ⟨_, ⟨x, hx, hxs⟩, _⟩
      have : x ∈ hole.filter (fun x => x.suit = fs) :=
        List.mem_filter.mpr ⟨hx, by simpa using hxs⟩
      rw [List.length_eq_zero] at hZ
      rw [hZ] at this
      simp at this
    · rw [if_neg hZ]
      by_cases hB : 5 ≤ ((community ++ [c]).filter
            (fun x => decide (x.suit = fs ∧ x ≠ c))).length +
          (if c.suit = fs then 1 else 0)
      · rw [if_pos hB]
        simp only [Bool.false_eq_true, false_iff]
        rintro ⟨_, _, hlt⟩
        rw [hcount] at hB
        omega
      · rw [if_neg hB]
        simp only [true_iff]
        rw [Bool.or_eq_true] at hA
        refine ⟨?_, ?_, ?_⟩
        · rcases hA with h | h
          · exact Or.inl (hace.mp h)
          · exact Or.inr (hcace.mp h)
        · rw [List.length_eq_zero] at hZ
          have hne := hZ
          rcases List.exists_mem_of_ne_nil _ hne with ⟨x, hx⟩
          have := List.mem_filter.mp hx
          exact ⟨x, this.1, by simpa using this.2⟩
        · rw [hcount] at hB
          omega
  · rw [if_neg hA]
    simp only [Bool.false_eq_true, false_iff]
    rintro ⟨hd, _, _⟩
    apply hA
    rw [Bool.or_eq_true]
    rcases hd with h | h
    · exact Or.inl (hace.mpr h)
    · exact Or.inr (hcace.mpr h)

/-- Witness for the amended C6: the preconditions and the fast-path
collapse hold at a concrete spade-flush completion. -/
theorem claim_C6_amended_witness :
    is_flush_nuts_scenario [Card.mk 13 0, Card.mk 12 0]
        ([Card.mk 14 0, Card.mk 7 0, Card.mk 3 1] ++ [Card.mk 2 0])
        (Card.mk 2 0) = true ∧
    (is_nuts_when_completed poker_oracle [Card.mk 13 0, Card.mk 12 0]
        [Card.mk 14 0, Card.mk 7 0, Card.mk 3 1] (some (Card.mk 2 0)) = true ↔
      ((Card.mk 14 0 ∈ [Card.mk 13 0, Card.mk 12 0] ∨
        Card.mk 2 0 = Card.mk 14 0) ∧
       (∃ hc2 ∈ [Card.mk 13 0, Card.mk 12 0], hc2.suit = 0) ∧
       (([Card.mk 14 0, Card.mk 7 0, Card.mk 3 1] ++ [Card.mk 2 0]).filter
         (fun x => x.suit = 0)).length < 5)) :=
  claim_C6_amended poker_oracle [Card.mk 13 0, Card.mk 12 0]
    [Card.mk 14 0, Card.mk 7 0, Card.mk 3 1] (Card.mk 2 0) 0 rfl (by decide)
    (by decide) (by decide)
    (fun r => count_key_le_one_of_nodup (fun x => x.value)
      ([Card.mk 14 0, Card.mk 7 0, Card.mk 3 1] ++ [Card.mk 2 0]) (by decide) r)
    (by decide)

/-- C7: with 2 hole cards and 5 community cards (river), the
orchestrator returns an empty outs list without running the classifier —
`("NUTS!", [])` when the terminal-mode nuts check succeeds and the fixed
sentinel `("999.0:1", [])` otherwise — and its river check coincides with
the terminal-mode nuts evaluator. -/
theorem claim_C7 (oracle : List Card → Option Nat) (hole community : List Card)
    (h2 : hole.length = 2) (h5 : community.length = 5) :
    calculate_pot_odds oracle hole community =
      (if is_nuts_when_completed oracle hole community none = true
       then ("NUTS!", []) else ("999.0:1", [])) ∧
    check_for_river_nuts oracle hole community =
      is_nuts_when_completed oracle hole community none := by
  have heq : check_for_river_nuts oracle hole community =
      is_nuts_when_completed oracle hole community none := by
    rw [check_for_river_nuts, is_nuts_when_completed]
    rw [if_neg (show ¬ (hole.length ≠ 2 ∨ community.length ≠ 5) by omega),
      if_neg (show ¬ hole.length ≠ 2 by omega),
      if_neg (show ¬ community.length ≠ 5 by omega)]
  constructor
  · rw [calculate_pot_odds]
    rw [if_pos (show hole.length + community.length = 7 by omega)]
    rw [heq]
  · exact heq

/-- Witness for C7: a concrete river input under a trivial oracle. -/
theorem claim_C7_witness :
    calculate_pot_odds (fun _ => some 0) [Card.mk 2 0, Card.mk 2 1]
        [Card.mk 3 0, Card.mk 4 0, Card.mk 5 0, Card.mk 6 0, Card.mk 8 0] =
      (if is_nuts_when_completed (fun _ => some 0) [Card.mk 2 0, Card.mk 2 1]
          [Card.mk 3 0, Card.mk 4 0, Card.mk 5 0, Card.mk 6 0, Card.mk 8 0]
          none = true
       then ("NUTS!", []) else ("999.0:1", [])) ∧
    check_for_river_nuts (fun _ => some 0) [Card.mk 2 0, Card.mk 2 1]
        [Card.mk 3 0, Card.mk 4 0, Card.mk 5 0, Card.mk 6 0, Card.mk 8 0] =
      is_nuts_when_completed (fun _ => some 0) [Card.mk 2 0, Card.mk 2 1]
        [Card.mk 3 0, Card.mk 4 0, Card.mk 5 0, Card.mk 6 0, Card.mk 8 0]
        none :=
  claim_C7 (fun _ => some 0) [Card.mk 2 0, Card.mk 2 1]
    [Card.mk 3 0, Card.mk 4 0, Card.mk 5 0, Card.mk 6 0, Card.mk 8 0] rfl rfl

/-- C9: fewer than 5 cards yields the worst-possible sentinel 9999 rather
than an error, and an oracle evaluation failure (modelled as `none`)
likewise degrades to 9999 instead of propagating. -/
theorem claim_C9 (oracle : List Card → Option Nat) (hole community : List Card) :
    ((hole ++ community).length < 5 →
      evaluate_hand_strength oracle hole community = 9999) ∧
    (oracle (hole ++ community) = none →
      evaluate_hand_strength oracle hole community = 9999) := by
  constructor
  · intro h
    unfold evaluate_hand_strength
    rw [if_pos h]
  · intro h
    unfold evaluate_hand_strength
    by_cases hl : (hole ++ community).length < 5
    · rw [if_pos hl]
    · rw [if_neg hl, h]
      rfl

/-- Witness for C9: a 1-card hand and a failing oracle on a 5-card hand
both produce the sentinel. -/
theorem claim_C9_witness :
    evaluate_hand_strength (fun _ => none) [Card.mk 2 0] [] = 9999 ∧
    evaluate_hand_strength (fun _ => none) [Card.mk 2 0, Card.mk 3 0]
      [Card.mk 4 0, Card.mk 5 0, Card.mk 6 0] = 9999 :=
  ⟨(claim_C9 (fun _ => none) [Card.mk 2 0] []).1 (by decide),
   (claim_C9 (fun _ => none) [Card.mk 2 0, Card.mk 3 0]
     [Card.mk 4 0, Card.mk 5 0, Card.mk 6 0]).2 rfl⟩

/-- C8: the ratio formatter returns the `"999.0:1"` sentinel for
P ≤ 0 and `"0.0:1"` for P ≥ 1; otherwise it rounds `(1-P)/P` to one
decimal place and renders an integer form when the rounded value has no
fractional part and the one-decimal form otherwise; in particular
P = 0.1647 gives `"5.1:1"` and P = 0.20 gives `"4:1"`. -/
theorem claim_C8 :
    (∀ p : ℚ, p ≤ 0 → format_pot_odds_string p = "999.0:1") ∧
    (∀ p : ℚ, 0 < p → 1 ≤ p → format_pot_odds_string p = "0.0:1") ∧
    (∀ p : ℚ, 0 < p → p < 1 → ∀ n : Nat,
      round (10 * ((1 - p) / p)) = (10 * n : ℤ) →
      format_pot_odds_string p = Nat.repr n ++ ":1") ∧
    (∀ p : ℚ, 0 < p → p < 1 → ∀ n d : Nat, 0 < d → d < 10 →
      round (10 * ((1 - p) / p)) = (10 * n + d : ℤ) →
      format_pot_odds_string p = Nat.repr n ++ "." ++ Nat.repr d ++ ":1") ∧
    format_pot_odds_string (1647 / 10000) = "5.1:1" ∧
    format_pot_odds_string (1 / 5) = "4:1" := by
  have hint : ∀ p : ℚ, 0 < p → p < 1 → ∀ n : Nat,
      round (10 * ((1 - p) / p)) = (10 * n : ℤ) →
      format_pot_odds_string p = Nat.repr n ++ ":1" := by
    intro p hp0 hp1 n hr
    simp only [format_pot_odds_string]
    rw [if_neg (not_le.mpr hp0), if_neg (not_le.mpr hp1), hr]
    have htn : ((10 * (n : ℤ))).toNat = 10 * n := by
      rw [show (10 * (n : ℤ)) = ((10 * n : ℕ) : ℤ) by push_cast; ring]
      exact Int.toNat_natCast _
    rw [htn, if_pos (by omega)]
    have : 10 * n / 10 = n := by omega
    rw [this]
  have hdec : ∀ p : ℚ, 0 < p → p < 1 → ∀ n d : Nat, 0 < d → d < 10 →
      round (10 * ((1 - p) / p)) = (10 * n + d : ℤ) →
      format_pot_odds_string p = Nat.repr n ++ "." ++ Nat.repr d ++ ":1" := by
    intro p hp0 hp1 n d hd0 hd10 hr
    simp only [format_pot_odds_string]
    rw [if_neg (not_le.mpr hp0), if_neg (not_le.mpr hp1), hr]
    have htn : ((10 * (n : ℤ) + (d : ℤ))).toNat = 10 * n + d := by
      rw [show (10 * (n : ℤ) + (d : ℤ)) = ((10 * n + d : ℕ) : ℤ) by
        push_cast; ring]
      exact Int.toNat_natCast _
    rw [htn, if_neg (by omega)]
    have h1 : (10 * n + d) / 10 = n := by omega
    have h2 : (10 * n + d) % 10 = d := by omega
    rw [h1, h2]
  refine ⟨?_, ?_, hint, hdec, ?_, ?_⟩
  · intro p hp
    simp only [format_pot_odds_string]
    rw [if_pos hp]
  · intro p hp0 hp1
    simp only [format_pot_odds_string]
    rw [if_neg (not_le.mpr hp0), if_pos hp1]
  · have h51 : round (10 * ((1 - (1647 / 10000 : ℚ)) / (1647 / 10000 : ℚ))) =
        (51 : ℤ) := by
      rw [round_eq, Int.floor_eq_iff]
      constructor <;> norm_num
    have := hdec (1647 / 10000) (by norm_num) (by norm_num) 5 1 (by omega)
      (by omega) (by rw [h51]; norm_num)
    simpa using this
  · have h40 : round (10 * ((1 - (1 / 5 : ℚ)) / (1 / 5 : ℚ))) = (40 : ℤ) := by
      rw [round_eq, Int.floor_eq_iff]
      constructor <;> norm_num
    have := hint (1 / 5) (by norm_num) (by norm_num) 4 (by rw [h40]; norm_num)
    simpa using this

/-- Witness for C2: hole As Ks on board Qs Js Td — the ten of spades is
a validated royal-flush candidate and is reported as `royal flush`. -/
theorem claim_C2_witness :
    (Card.mk 10 0, "royal flush") ∈ find_outs poker_oracle
      [Card.mk 14 0, Card.mk 13 0] [Card.mk 12 0, Card.mk 11 0, Card.mk 10 2] :=
  (claim_C2 poker_oracle [Card.mk 14 0, Card.mk 13 0]
      [Card.mk 12 0, Card.mk 11 0, Card.mk 10 2]).2.2 (Card.mk 10 0)
    (by decide) (by decide)

/-- Witness for C8: the two sentinel branches at concrete inputs. -/
theorem claim_C8_witness :
    format_pot_odds_string 0 = "999.0:1" ∧
    format_pot_odds_string (3 / 2) = "0.0:1" :=
  ⟨claim_C8.1 0 le_rfl, claim_C8.2.1 (3 / 2) (by norm_num) (by norm_num)⟩

section CounterexampleSearch

set_option maxRecDepth 40000

/-- C5 counterexample: hole Ah 2h, community 9h 8h 3c, completing card
7h.  The flush fast path triggers and answers TRUE (ace-high flush with a
hole-card ace), yet an opponent holding Th Jh makes a jack-high straight
flush against the same board, so the player's rank is NOT at most the
minimum achievable rank — "returns true iff (a) and (b)" fails. -/
theorem claim_C5_counterexample :
    is_nuts_when_completed poker_oracle [Card.mk 14 1, Card.mk 2 1]
        [Card.mk 9 1, Card.mk 8 1, Card.mk 3 3] (some (Card.mk 7 1)) = true ∧
    ¬ (evaluate_hand_strength poker_oracle [Card.mk 14 1, Card.mk 2 1]
        ([Card.mk 9 1, Card.mk 8 1, Card.mk 3 3] ++ [Card.mk 7 1]) ≤
      find_best_possible_hand_strength_excluding_known poker_oracle
        ([Card.mk 9 1, Card.mk 8 1, Card.mk 3 3] ++ [Card.mk 7 1])
        ([Card.mk 14 1, Card.mk 2 1] ++
          ([Card.mk 9 1, Card.mk 8 1, Card.mk 3 3] ++ [Card.mk 7 1]))) := by
  refine ⟨by decide, ?_⟩
  rw [le_find_best_iff _ _ _ _ (by decide)]
  rintro ⟨-, hall⟩
  have hb := hall (Card.mk 10 1, Card.mk 11 1) (by decide)
  revert hb
  decide

/-- C6 counterexample: hole As 2s, community 9s 8s 3h, completing card
7s.  The fast-path preconditions hold (5 spades, unpaired board, no
5-run among the KNOWN spade ranks A-2-7-8-9) and the evaluator answers
TRUE via the fast-path criterion; but the general exhaustive check fails:
an opponent holding Ts Js makes a straight flush, so the fast path does
not equal the general check under the stated preconditions. -/
theorem claim_C6_counterexample :
    is_flush_nuts_scenario [Card.mk 14 0, Card.mk 2 0]
        ([Card.mk 9 0, Card.mk 8 0, Card.mk 3 1] ++ [Card.mk 7 0])
        (Card.mk 7 0) = true ∧
    is_nuts_when_completed poker_oracle [Card.mk 14 0, Card.mk 2 0]
        [Card.mk 9 0, Card.mk 8 0, Card.mk 3 1] (some (Card.mk 7 0)) = true ∧
    uses_at_least_one_hole_card poker_oracle [Card.mk 14 0, Card.mk 2 0]
        ([Card.mk 9 0, Card.mk 8 0, Card.mk 3 1] ++ [Card.mk 7 0]) = true ∧
    ¬ (evaluate_hand_strength poker_oracle [Card.mk 14 0, Card.mk 2 0]
        ([Card.mk 9 0, Card.mk 8 0, Card.mk 3 1] ++ [Card.mk 7 0]) ≤
      find_best_possible_hand_strength_excluding_known poker_oracle
        ([Card.mk 9 0, Card.mk 8 0, Card.mk 3 1] ++ [Card.mk 7 0])
        ([Card.mk 14 0, Card.mk 2 0] ++
          ([Card.mk 9 0, Card.mk 8 0, Card.mk 3 1] ++ [Card.mk 7 0]))) := by
  refine ⟨by decide, by decide, by decide, ?_⟩
  rw [le_find_best_iff _ _ _ _ (by decide)]
  rintro ⟨-, hall⟩
  have hb := hall (Card.mk 10 0, Card.mk 11 0) (by decide)
  revert hb
  decide

end CounterexampleSearch
